import Mathlib

/-
Verification development for the fault-splitting pipeline in `main.py`
(`split_faults_by_country`).

Strings from the Python side are modelled as lists of Unicode codepoints
(`List Nat`), which matches Python semantics (a `str` is a sequence of
codepoints).  Attribute column names, which are only ever compared for
equality and for the literal prefix check `col.startswith("index_")`,
are modelled as Lean `String`s.
-/

namespace GemFaults

/-- Codepoints of a Lean string literal; bridge used to write concrete
Python strings in statements. -/
def codes (s : String) : List Nat := s.data.map Char.toNat

/-- Python `str.strip()` whitespace class (the codepoints relevant here:
ASCII whitespace, the C1 separators, NEL and NBSP; all further Unicode
space codepoints are ≥ 0x1680 and never interact with the slug alphabet). -/
def isPySpace (n : Nat) : Bool :=
  n == 32 || (9 ≤ n && n ≤ 13) || (28 ≤ n && n ≤ 31) || n == 133 || n == 160 ||
  n == 5760 || (8192 ≤ n && n ≤ 8202) || n == 8232 || n == 8233 || n == 8239 ||
  n == 8287 || n == 12288

/-- The character class `[a-zA-Z0-9_]` of the regex in `main.py` line 150. -/
def isWordCh (n : Nat) : Bool :=
  (65 ≤ n && n ≤ 90) || (97 ≤ n && n ≤ 122) || (48 ≤ n && n ≤ 57) || n == 95

/-- ASCII lowercasing of one codepoint, as Python `str.lower()` acts on the
codepoints produced by the slug pipeline (all ASCII at that stage). -/
def lowerCh (n : Nat) : Nat := if 65 ≤ n && n ≤ 90 then n + 32 else n

/-- Remove the maximal run of `p`-characters at both ends of the list;
models Python `str.strip()` / `str.strip(chars)`. -/
def dropAround (p : Nat → Bool) (l : List Nat) : List Nat :=
  ((l.dropWhile p).reverse.dropWhile p).reverse

/-- `str.strip()` — line 145 of `main.py`. -/
def pyStrip (l : List Nat) : List Nat := dropAround isPySpace l

/-- `.replace("'", "")` — line 147 of `main.py` (codepoint 39 is the
apostrophe). -/
def removeApos (l : List Nat) : List Nat := l.filter (fun n => !(n == 39))

/-- Worker for `re.sub(r'[^a-zA-Z0-9_]+', '_', s)`: the flag records
whether the previous character was part of a non-word run, so each maximal
run contributes a single underscore (codepoint 95). -/
def collapseAux : Bool → List Nat → List Nat
  | _, [] => []
  | inRun, c :: rest =>
    if isWordCh c then c :: collapseAux false rest
    else if inRun then collapseAux true rest
    else 95 :: collapseAux true rest

/-- `re.sub(r'[^a-zA-Z0-9_]+', '_', s)` — line 150 of `main.py`. -/
def collapseRuns (l : List Nat) : List Nat := collapseAux false l

/-- `.strip('_')` — line 154 of `main.py`. -/
def stripUnders (l : List Nat) : List Nat := dropAround (fun n => n == 95) l

/-- The transformation steps of the sanitizer (lines 145–154 of `main.py`):
strip whitespace, remove apostrophes, collapse non-word runs to `_`,
lowercase, strip leading/trailing underscores. -/
def slugCore (l : List Nat) : List Nat :=
  stripUnders ((collapseRuns (removeApos (pyStrip l))).map lowerCh)

/-- The full sanitizer (lines 145–156 of `main.py`): the transformation
steps followed by the empty-result fallback `"unknown_country"`. -/
def slug (l : List Nat) : List Nat :=
  if slugCore l = [] then codes ("unknown_country") else slugCore l

/- ### Helper lemmas about the slug machinery -/

theorem dropWhile_dropWhile (p : Nat → Bool) (l : List Nat) :
    List.dropWhile p (List.dropWhile p l) = List.dropWhile p l := by
  induction l with
  | nil => simp
  | cons a t ih =>
    by_cases h : p a = true
    · simp [List.dropWhile, h, ih]
    · simp [List.dropWhile, h]

theorem length_dropWhile_le (p : Nat → Bool) (l : List Nat) :
    (List.dropWhile p l).length ≤ l.length := by
  induction l with
  | nil => simp
  | cons a t ih =>
    by_cases h : p a = true
    · simp [List.dropWhile, h]; omega
    · simp [List.dropWhile, h]

theorem dropWhile_eq_self_of_none (p : Nat → Bool) (l : List Nat)
    (h : ∀ a ∈ l, p a = false) : List.dropWhile p l = l := by
  cases l with
  | nil => simp
  | cons a t => simp [List.dropWhile, h a (List.mem_cons_self a t)]

theorem dropAround_eq_self_of_none (p : Nat → Bool) (l : List Nat)
    (h : ∀ a ∈ l, p a = false) : dropAround p l = l := by
  unfold dropAround
  rw [dropWhile_eq_self_of_none p l h,
    dropWhile_eq_self_of_none p l.reverse (fun a ha => h a (List.mem_reverse.mp ha)),
    List.reverse_reverse]

theorem mem_of_mem_dropWhile (p : Nat → Bool) (l : List Nat) (a : Nat)
    (h : a ∈ List.dropWhile p l) : a ∈ l := by
  induction l with
  | nil => simp at h
  | cons b t ih =>
    by_cases hb : p b = true
    · simp [List.dropWhile, hb] at h
      exact List.mem_cons_of_mem b (ih h)
    · simpa [List.dropWhile, hb] using h

theorem mem_of_mem_dropAround (p : Nat → Bool) (l : List Nat) (a : Nat)
    (h : a ∈ dropAround p l) : a ∈ l := by
  unfold dropAround at h
  rw [List.mem_reverse] at h
  have h1 := mem_of_mem_dropWhile p (List.dropWhile p l).reverse a h
  rw [List.mem_reverse] at h1
  exact mem_of_mem_dropWhile p l a h1

theorem dropWhile_fixed_of_append (p : Nat → Bool) (m w u : List Nat)
    (hmu : m ++ w = u) (hu : List.dropWhile p u = u) :
    List.dropWhile p m = m := by
  cases m with
  | nil => simp
  | cons a t =>
    have ha : p a = false := by
      by_contra hpa
      have hpa' : p a = true := by
        cases h' : p a
        · exact absurd h' hpa
        · rfl
      have h2 : List.dropWhile p u = List.dropWhile p (t ++ w) := by
        rw [← hmu]; simp [List.dropWhile, hpa']
      rw [hu] at h2
      have hlen := length_dropWhile_le p (t ++ w)
      rw [← h2, ← hmu] at hlen
      simp [List.length_append] at hlen
    simp [List.dropWhile, ha]

theorem dropAround_idem (p : Nat → Bool) (l : List Nat) :
    dropAround p (dropAround p l) = dropAround p l := by
  have hufix : List.dropWhile p (List.dropWhile p l) = List.dropWhile p l :=
    dropWhile_dropWhile p l
  have hsplit : dropAround p l ++ ((List.dropWhile p l).reverse.takeWhile p).reverse
      = List.dropWhile p l := by
    unfold dropAround
    rw [← List.reverse_append, List.takeWhile_append_dropWhile, List.reverse_reverse]
  have hmfix : List.dropWhile p (dropAround p l) = dropAround p l :=
    dropWhile_fixed_of_append p _ _ _ hsplit hufix
  have step : dropAround p (dropAround p l)
      = (((dropAround p l).dropWhile p).reverse.dropWhile p).reverse := rfl
  rw [step, hmfix]
  have h2 : (dropAround p l).reverse = (List.dropWhile p l).reverse.dropWhile p := by
    unfold dropAround
    rw [List.reverse_reverse]
  rw [h2, dropWhile_dropWhile, ← h2, List.reverse_reverse]

theorem mem_collapseAux (b : Bool) (l : List Nat) (a : Nat)
    (h : a ∈ collapseAux b l) : isWordCh a = true := by
  induction l generalizing b with
  | nil => simp [collapseAux] at h
  | cons c t ih =>
    by_cases hc : isWordCh c = true
    · simp [collapseAux, hc] at h
      rcases h with h | h
      · rwa [h]
      · exact ih false h
    · by_cases hb : b = true
      · simp [collapseAux, hc, hb] at h
        exact ih true h
      · have hb' : b = false := by cases b; rfl; exact absurd rfl hb
        simp [collapseAux, hc, hb'] at h
        rcases h with h | h
        · rw [h]; rfl
        · exact ih true h

theorem collapseAux_eq_self (l : List Nat)
    (h : ∀ a ∈ l, isWordCh a = true) : collapseAux false l = l := by
  induction l with
  | nil => rfl
  | cons c t ih =>
    have hc := h c (List.mem_cons_self c t)
    simp [collapseAux, hc]
    exact ih (fun a ha => h a (List.mem_cons_of_mem c ha))

theorem lowerCh_word (n : Nat) (h : isWordCh n = true) :
    isWordCh (lowerCh n) = true ∧ lowerCh (lowerCh n) = lowerCh n := by
  simp only [isWordCh, lowerCh, Bool.or_eq_true, Bool.and_eq_true, decide_eq_true_eq,
    beq_iff_eq] at h ⊢
  split_ifs <;> omega

theorem word_not_space (n : Nat) (h : isWordCh n = true) : isPySpace n = false := by
  simp [isWordCh] at h
  simp [isPySpace]
  omega

theorem word_not_apos (n : Nat) (h : isWordCh n = true) : (n == 39) = false := by
  simp [isWordCh] at h
  simp
  omega

theorem map_eq_self_of_fixed (f : Nat → Nat) (l : List Nat)
    (h : ∀ a ∈ l, f a = a) : l.map f = l := by
  induction l with
  | nil => rfl
  | cons a t ih =>
    simp [h a (List.mem_cons_self a t), ih (fun b hb => h b (List.mem_cons_of_mem a hb))]

theorem filter_eq_self_of_all (p : Nat → Bool) :
    ∀ l : List Nat, (∀ a ∈ l, p a = true) → l.filter p = l := by
  intro l
  induction l with
  | nil => intro _; rfl
  | cons a t ih =>
    intro h
    have ha := h a (List.mem_cons_self a t)
    simp only [List.filter_cons, ha, if_true]
    rw [ih (fun b hb => h b (List.mem_cons_of_mem a hb))]

/-- Every codepoint of `slugCore l` is a word character that lowercasing
leaves unchanged. -/
theorem slugCore_chars (l : List Nat) (a : Nat) (h : a ∈ slugCore l) :
    isWordCh a = true ∧ lowerCh a = a := by
  unfold slugCore at h
  have h1 := mem_of_mem_dropAround _ _ _ h
  rcases List.mem_map.mp h1 with ⟨b, hb, hba⟩
  have hbw : isWordCh b = true := mem_collapseAux false _ b hb
  rcases lowerCh_word b hbw with ⟨hw, hfix⟩
  rw [← hba]
  exact ⟨hw, hfix⟩

theorem slugCore_slugCore (l : List Nat) : slugCore (slugCore l) = slugCore l := by
  have hchars := slugCore_chars l
  have h1 : pyStrip (slugCore l) = slugCore l :=
    dropAround_eq_self_of_none _ _
      (fun a ha => word_not_space a (hchars a ha).1)
  have h2 : removeApos (slugCore l) = slugCore l := by
    unfold removeApos
    exact filter_eq_self_of_all _ _
      (fun a ha => by rw [word_not_apos a (hchars a ha).1]; rfl)
  have h3 : collapseRuns (slugCore l) = slugCore l :=
    collapseAux_eq_self _ (fun a ha => (hchars a ha).1)
  have h4 : (slugCore l).map lowerCh = slugCore l :=
    map_eq_self_of_fixed _ _ (fun a ha => (hchars a ha).2)
  show stripUnders (((collapseRuns (removeApos (pyStrip (slugCore l))))).map lowerCh)
      = slugCore l
  rw [h1, h2, h3, h4]
  show dropAround (fun n => n == 95) (slugCore l) = slugCore l
  unfold slugCore stripUnders
  exact dropAround_idem _ _

theorem slugCore_unknown :
    slugCore (codes ("unknown_country")) = codes ("unknown_country") := by decide

theorem slug_slug (l : List Nat) : slug (slug l) = slug l := by
  by_cases h : slugCore l = []
  · have h1 : slug l = codes ("unknown_country") := by simp [slug, h]
    rw [h1]
    simp [slug, slugCore_unknown]
  · have h1 : slug l = slugCore l := by simp [slug, h]
    rw [h1]
    simp [slug, slugCore_slugCore, h]

/- ### Data model of the pipeline

Attribute cell values: a pandas object column can hold `None`/`NaN`
(`vnull`), text (`vstr`, the codepoints) or another scalar (`vnum`);
`main.py` line 130 accepts only text values as country names. -/

inductive PVal : Type where
  | vnull : PVal
  | vstr : List Nat → PVal
  | vnum : Int → PVal
deriving DecidableEq

/-- The `isinstance(country_name, (str, bytes))`-style validity test of
line 130 in `main.py` in the value model used here. -/
def isText : PVal → Bool
  | PVal.vstr _ => true
  | _ => false

/-- One feature of a GeoDataFrame: a geometry plus its attribute row.
The geometry type `G` and the exact intersection predicate are parameters
of the whole development (shapely geometries are external to the repo). -/
structure Feature (G : Type) where
  geom : G
  attrs : List (String × PVal)
deriving DecidableEq

/-- A loaded GeoDataFrame: declared reference identifier (`crs`, possibly
unset), attribute column names, and features. -/
structure GeoFrame (G : Type) where
  crs : Option (List Nat)
  cols : List String
  feats : List (Feature G)
deriving DecidableEq

/-- Value of an attribute column in a feature's row (missing key models a
`NaN` cell). -/
def lookupAttr (attrs : List (String × PVal)) (c : String) : PVal :=
  match attrs.lookup c with
  | some v => v
  | none => PVal.vnull

/-- The region-name cell of a region feature (`countries_gdf[country_name_col]`). -/
def regionNameVal (nameCol : String) (r : Feature G) : PVal :=
  lookupAttr r.attrs nameCol

/-- One row of `joined_gdf` (`gpd.sjoin(faults_gdf, countries_gdf[[col,
'geometry']], how="inner", predicate="intersects")`): the fault's index
(the DataFrame index preserved by the join), its geometry and attributes,
the matched region's name cell, and the `index_right` join artifact. -/
structure JoinRow (G : Type) where
  fidx : Nat
  geom : G
  attrs : List (String × PVal)
  rname : PVal
  ridx : Nat
deriving DecidableEq

/-- Rows the join emits for one fault against the (indexed) region list:
one row per region whose geometry intersects the fault's, in region order. -/
def joinRowsFor (its : G → G → Bool) (nameCol : String) (i : Nat) (f : Feature G) :
    List (Nat × Feature G) → List (JoinRow G)
  | [] => []
  | rj :: rs =>
    if its f.geom rj.2.geom then
      ⟨i, f.geom, f.attrs, regionNameVal nameCol rj.2, rj.1⟩ :: joinRowsFor its nameCol i f rs
    else joinRowsFor its nameCol i f rs

/-- Pair each feature with its positional index, starting at `n`. -/
def enumFeat : Nat → List (Feature G) → List (Nat × Feature G)
  | _, [] => []
  | j, r :: rf => (j, r) :: enumFeat (j + 1) rf

/-- The spatial join, iterating faults in input order with their indices. -/
def sjoinAux (its : G → G → Bool) (nameCol : String)
    (rs : List (Nat × Feature G)) : Nat → List (Feature G) → List (JoinRow G)
  | _, [] => []
  | i, f :: ff => joinRowsFor its nameCol i f rs ++ sjoinAux its nameCol rs (i + 1) ff

/-- `gpd.sjoin(faults_gdf, countries_gdf[[name_col, 'geometry']],
how="inner", predicate="intersects")` — lines 112–117 of `main.py`. -/
def sjoinInner (its : G → G → Bool) (nameCol : String)
    (ff rf : List (Feature G)) : List (JoinRow G) :=
  sjoinAux its nameCol (enumFeat 0 rf) 0 ff

/-- `joined_gdf[country_name_col].unique()` — pandas keeps the first
occurrence of each value, in order of appearance. -/
def uniqueFirstAux : List PVal → List PVal → List PVal
  | _, [] => []
  | seen, a :: l =>
    if a ∈ seen then uniqueFirstAux seen l else a :: uniqueFirstAux (a :: seen) l

/-- First-occurrence deduplication, as `pandas.unique` does. -/
def uniqueFirst (l : List PVal) : List PVal := uniqueFirstAux [] l

/-- Columns that survive line 140 of `main.py`: everything except names
starting with `index_` (the `col.startswith('index_')` test, expressed on
the character lists) and the region-name column itself. -/
def keepCol (nameCol : String) (c : String) : Bool :=
  !(("index_").data.isPrefixOf c.data) && !(decide (c = nameCol))

/-- All attribute columns of one `joined_gdf` row: the fault's attributes
followed by the joined region-name column and the `index_right` artifact. -/
def joinedAttrs (nameCol : String) (row : JoinRow G) : List (String × PVal) :=
  row.attrs ++ [(nameCol, row.rname), (("index_right"), PVal.vnum (Int.ofNat row.ridx))]

/-- Attributes of a row after the `drop(columns=columns_to_drop)` of
lines 140–141 of `main.py`. -/
def cleanAttrs (nameCol : String) (row : JoinRow G) : List (String × PVal) :=
  (joinedAttrs nameCol row).filter fun p => keepCol nameCol p.1

/-- A fault feature as it appears inside one per-country output file:
original DataFrame index, geometry, and cleaned attributes. -/
structure OutRow (G : Type) where
  fidx : Nat
  geom : G
  attrs : List (String × PVal)
deriving DecidableEq

/-- Turn one join row into an output row. -/
def mkOutRow (nameCol : String) (row : JoinRow G) : OutRow G :=
  ⟨row.fidx, row.geom, cleanAttrs nameCol row⟩

/-- One per-region output group: the region identifier (the text of its
name cell) and the fault features written for it. -/
structure RegionGroup (G : Type) where
  rname : List Nat
  feats : List (OutRow G)
deriving DecidableEq

/-- `country_faults` for one country name: the joined rows whose name cell
equals it (line 136), cleaned (lines 140–141). -/
def mkGroup (nameCol : String) (s : List Nat) (rows : List (JoinRow G)) : RegionGroup G :=
  ⟨s, (rows.filter fun r => decide (r.rname = PVal.vstr s)).map (mkOutRow nameCol)⟩

/-- Output path for one group — line 159 of `main.py`
(`os.path.join(output_dir, f"faults_[slug].geojson")`; codepoint 47 is the
path separator inserted by `os.path.join` in the relative-path case). -/
def mkPath (outDir : List Nat) (s : List Nat) : List Nat :=
  outDir ++ [47] ++ (codes ("faults_") ++ slug s ++ codes (".geojson"))

/-- The per-country loop of lines 128–164: each unique name either yields
an output `(path, group)` (text names) or a skip diagnostic (line 131). -/
def buildOutputsAux (outDir : List Nat) (nameCol : String) (rows : List (JoinRow G)) :
    List PVal → List (List Nat × RegionGroup G) × List PVal
  | [] => ([], [])
  | nm :: rest =>
    match nm with
    | PVal.vstr s =>
      ((mkPath outDir s, mkGroup nameCol s rows) :: (buildOutputsAux outDir nameCol rows rest).1,
        (buildOutputsAux outDir nameCol rows rest).2)
    | _ =>
      ((buildOutputsAux outDir nameCol rows rest).1,
        nm :: (buildOutputsAux outDir nameCol rows rest).2)

/-- Outputs and diagnostics of the whole per-country loop. -/
def buildOutputs (outDir : List Nat) (nameCol : String) (rows : List (JoinRow G)) :
    List (List Nat × RegionGroup G) × List PVal :=
  buildOutputsAux outDir nameCol rows (uniqueFirst (rows.map (fun r => r.rname)))

/-- The default reference identifier assigned to a naive region frame —
line 82 of `main.py`. -/
def wgs84 : List Nat := codes ("EPSG:4326")

/-- Lines 80–83 of `main.py`: assign `EPSG:4326` when the region frame has
no reference identifier. -/
def defaultCrs (regions : GeoFrame G) : GeoFrame G :=
  if regions.crs = none then ⟨some wgs84, regions.cols, regions.feats⟩ else regions

/-- Lines 89–95 of `main.py` (with the line 80–83 default folded in):
reproject the regions to the fault reference when they differ.  The fault
frame is returned untouched in every successful case.  `to_crs(None)`
(fault reference unset) raises in geopandas, modelled as the error case. -/
def normalizeFrames (transform : G → List Nat → List Nat → G)
    (faults regions : GeoFrame G) : Except String (GeoFrame G × GeoFrame G) :=
  if faults.crs = (defaultCrs regions).crs then Except.ok (faults, defaultCrs regions)
  else
    match faults.crs, (defaultCrs regions).crs with
    | none, _ => Except.error ("to_crs: must pass either crs or epsg")
    | some c, some rc =>
      Except.ok (faults,
        ⟨some c, (defaultCrs regions).cols,
          (defaultCrs regions).feats.map fun f0 => ⟨transform f0.geom rc c, f0.attrs⟩⟩)
    | some _, none => Except.error ("cannot transform naive geometries")

/-- Result of a run of `split_faults_by_country` after the two inputs were
loaded: a fatal reference-system failure, the fatal missing-column abort of
lines 99–103 (carrying the available column names it reports), or normal
completion with the written outputs and the skip diagnostics. -/
inductive RunResult (G : Type) where
  | fatalCrs : String → RunResult G
  | fatalColumn : List String → RunResult G
  | done : List (List Nat × RegionGroup G) → List PVal → RunResult G
deriving DecidableEq

/-- The pipeline of `split_faults_by_country` from the point where both
inputs are loaded: normalize references, validate the name column, join,
group, clean, and emit one file per country. -/
def splitRun (its : G → G → Bool) (transform : G → List Nat → List Nat → G)
    (faults regions : GeoFrame G) (outDir : List Nat) (nameCol : String) : RunResult G :=
  match normalizeFrames transform faults regions with
  | Except.error e => RunResult.fatalCrs e
  | Except.ok pr =>
    if nameCol ∈ pr.2.cols then
      RunResult.done
        (buildOutputs outDir nameCol (sjoinInner its nameCol pr.1.feats pr.2.feats)).1
        (buildOutputs outDir nameCol (sjoinInner its nameCol pr.1.feats pr.2.feats)).2
    else RunResult.fatalColumn pr.2.cols

/-- Occurrences of fault `i` among the output groups carrying identifier `s`. -/
def groupCount (outs : List (List Nat × RegionGroup G)) (s : List Nat) (i : Nat) : Nat :=
  match outs with
  | [] => 0
  | pg :: rest =>
    (if pg.2.rname = s then pg.2.feats.countP fun row => decide (row.fidx = i) else 0)
      + groupCount rest s i

/-- Number of distinct output groups in which fault `i` appears. -/
def groupsContaining (outs : List (List Nat × RegionGroup G)) (i : Nat) : Nat :=
  outs.countP fun pg => pg.2.feats.any fun row => decide (row.fidx = i)

/- ### Counting helpers -/

theorem countP_disjoint {α : Type} (p q : α → Bool) (l : List α)
    (h : ∀ a ∈ l, ¬(p a = true ∧ q a = true)) :
    l.countP (fun a => p a || q a) = l.countP p + l.countP q := by
  induction l with
  | nil => simp
  | cons a t ih =>
    have ht := ih (fun b hb => h b (List.mem_cons_of_mem a hb))
    have ha := h a (List.mem_cons_self a t)
    rw [List.countP_cons, List.countP_cons, List.countP_cons, ht]
    cases hp : p a <;> cases hq : q a <;> simp_all <;> omega

theorem countP_eq_one_of_nodup {α : Type} [DecidableEq α] (l : List α) (x : α)
    (hnd : l.Nodup) (hx : x ∈ l) :
    l.countP (fun a => decide (x = a)) = 1 := by
  induction l with
  | nil => simp at hx
  | cons a t ih =>
    rcases List.nodup_cons.mp hnd with ⟨hna, hnt⟩
    rcases List.mem_cons.mp hx with h | h
    · have h0 : t.countP (fun a2 => decide (x = a2)) = 0 := by
        rw [List.countP_eq_zero]
        intro b hb hxb
        rw [decide_eq_true_iff] at hxb
        rw [h] at hxb
        rw [← hxb] at hb
        exact hna hb
      rw [List.countP_cons, h0, h]
      simp
    · have hax : ¬(x = a) := by
        intro he
        rw [he] at h
        exact hna h
      rw [List.countP_cons, ih hnt h]
      simp [hax]

theorem any_map2 {α β : Type} (f : α → β) (p : β → Bool) :
    ∀ l : List α, (l.map f).any p = l.any (fun a => p (f a)) := by
  intro l
  induction l with
  | nil => rfl
  | cons a t ih => simp only [List.map_cons, List.any_cons, ih]

theorem any_eq_decide_countP {α : Type} (p : α → Bool) (l : List α) :
    l.any p = decide (0 < l.countP p) := by
  cases hc : l.any p
  · rw [List.any_eq_false] at hc
    have h0 : l.countP p = 0 := List.countP_eq_zero.mpr hc
    simp [h0]
  · rw [List.any_eq_true] at hc
    have h0 : 0 < l.countP p := List.countP_pos_iff.mpr hc
    simp [h0]

/- ### uniqueFirst (pandas `unique`) lemmas -/

theorem mem_of_mem_uniqueFirstAux (x : PVal) :
    ∀ (l seen : List PVal), x ∈ uniqueFirstAux seen l → x ∈ l := by
  intro l
  induction l with
  | nil => intro seen h; simp [uniqueFirstAux] at h
  | cons a t ih =>
    intro seen h
    by_cases ha : a ∈ seen
    · simp only [uniqueFirstAux, if_pos ha] at h
      exact List.mem_cons_of_mem a (ih seen h)
    · simp only [uniqueFirstAux, if_neg ha] at h
      rcases List.mem_cons.mp h with h1 | h1
      · rw [h1]; exact List.mem_cons_self a t
      · exact List.mem_cons_of_mem a (ih (a :: seen) h1)

theorem not_mem_seen_of_mem_uniqueFirstAux (x : PVal) :
    ∀ (l seen : List PVal), x ∈ uniqueFirstAux seen l → x ∉ seen := by
  intro l
  induction l with
  | nil => intro seen h; simp [uniqueFirstAux] at h
  | cons a t ih =>
    intro seen h
    by_cases ha : a ∈ seen
    · simp only [uniqueFirstAux, if_pos ha] at h
      exact ih seen h
    · simp only [uniqueFirstAux, if_neg ha] at h
      rcases List.mem_cons.mp h with h1 | h1
      · rw [h1]; exact ha
      · intro hx
        exact ih (a :: seen) h1 (List.mem_cons_of_mem a hx)

theorem mem_uniqueFirstAux_of_mem (x : PVal) :
    ∀ (l seen : List PVal), x ∈ l → x ∉ seen → x ∈ uniqueFirstAux seen l := by
  intro l
  induction l with
  | nil => intro seen h _; simp at h
  | cons a t ih =>
    intro seen hx hs
    by_cases ha : a ∈ seen
    · simp only [uniqueFirstAux, if_pos ha]
      rcases List.mem_cons.mp hx with h1 | h1
      · rw [h1] at hs; exact absurd ha hs
      · exact ih seen h1 hs
    · simp only [uniqueFirstAux, if_neg ha]
      by_cases hxa : x = a
      · rw [hxa]; exact List.mem_cons_self a _
      · rcases List.mem_cons.mp hx with h1 | h1
        · exact absurd h1 hxa
        · refine List.mem_cons_of_mem a (ih (a :: seen) h1 ?_)
          intro hmem
          rcases List.mem_cons.mp hmem with h2 | h2
          · exact hxa h2
          · exact hs h2

theorem nodup_uniqueFirstAux :
    ∀ (l seen : List PVal), (uniqueFirstAux seen l).Nodup := by
  intro l
  induction l with
  | nil => intro seen; simp [uniqueFirstAux]
  | cons a t ih =>
    intro seen
    by_cases ha : a ∈ seen
    · simp only [uniqueFirstAux, if_pos ha]; exact ih seen
    · simp only [uniqueFirstAux, if_neg ha]
      refine List.nodup_cons.mpr ⟨?_, ih (a :: seen)⟩
      intro hmem
      exact not_mem_seen_of_mem_uniqueFirstAux a t (a :: seen) hmem
        (List.mem_cons_self a seen)

theorem mem_uniqueFirst (x : PVal) (l : List PVal) : x ∈ uniqueFirst l ↔ x ∈ l := by
  constructor
  · exact mem_of_mem_uniqueFirstAux x l []
  · intro h
    exact mem_uniqueFirstAux_of_mem x l [] h (by simp)

theorem nodup_uniqueFirst (l : List PVal) : (uniqueFirst l).Nodup :=
  nodup_uniqueFirstAux l []

/- ### Join lemmas -/

theorem mem_joinRowsFor {G : Type} (its : G → G → Bool) (nameCol : String) (i : Nat)
    (f : Feature G) (r : JoinRow G) :
    ∀ rs : List (Nat × Feature G), r ∈ joinRowsFor its nameCol i f rs →
      ∃ pr, pr ∈ rs ∧ its f.geom pr.2.geom = true ∧
        r = ⟨i, f.geom, f.attrs, regionNameVal nameCol pr.2, pr.1⟩ := by
  intro rs
  induction rs with
  | nil => intro h; simp [joinRowsFor] at h
  | cons rj rt ih =>
    intro h
    by_cases hits : its f.geom rj.2.geom = true
    · simp only [joinRowsFor, if_pos hits] at h
      rcases List.mem_cons.mp h with h1 | h1
      · exact ⟨rj, List.mem_cons_self rj rt, hits, h1⟩
      · rcases ih h1 with ⟨pr, hpr, hi, he⟩
        exact ⟨pr, List.mem_cons_of_mem rj hpr, hi, he⟩
    · simp only [joinRowsFor, if_neg hits] at h
      rcases ih h with ⟨pr, hpr, hi, he⟩
      exact ⟨pr, List.mem_cons_of_mem rj hpr, hi, he⟩

theorem joinRowsFor_emit {G : Type} (its : G → G → Bool) (nameCol : String) (i : Nat)
    (f : Feature G) (pr : Nat × Feature G) :
    ∀ rs : List (Nat × Feature G), pr ∈ rs → its f.geom pr.2.geom = true →
      ∃ r, r ∈ joinRowsFor its nameCol i f rs ∧ r.rname = regionNameVal nameCol pr.2 := by
  intro rs
  induction rs with
  | nil => intro h _; simp at h
  | cons rj rt ih =>
    intro hpr hits
    rcases List.mem_cons.mp hpr with h1 | h1
    · subst h1
      refine ⟨⟨i, f.geom, f.attrs, regionNameVal nameCol pr.2, pr.1⟩, ?_, rfl⟩
      simp only [joinRowsFor, if_pos hits]
      exact List.mem_cons_self _ _
    · rcases ih h1 hits with ⟨r, hr, he⟩
      refine ⟨r, ?_, he⟩
      by_cases hits0 : its f.geom rj.2.geom = true
      · simp only [joinRowsFor, if_pos hits0]
        exact List.mem_cons_of_mem _ hr
      · simp only [joinRowsFor, if_neg hits0]
        exact hr

theorem joinRowsFor_countP_name {G : Type} (its : G → G → Bool) (nameCol : String)
    (i : Nat) (f : Feature G) (nm : PVal) :
    ∀ rs : List (Nat × Feature G),
      (joinRowsFor its nameCol i f rs).countP (fun r => decide (r.rname = nm))
        = rs.countP (fun pr =>
            its f.geom pr.2.geom && decide (regionNameVal nameCol pr.2 = nm)) := by
  intro rs
  induction rs with
  | nil => rfl
  | cons rj rt ih =>
    by_cases hits : its f.geom rj.2.geom = true
    · simp only [joinRowsFor, if_pos hits]
      rw [List.countP_cons, List.countP_cons, ih]
      simp [hits]
    · simp only [joinRowsFor, if_neg hits]
      rw [List.countP_cons, ih]
      have h0 : its f.geom rj.2.geom = false := by
        cases h2 : its f.geom rj.2.geom
        · rfl
        · exact absurd h2 hits
      simp [h0]

theorem joinRowsFor_fidx {G : Type} (its : G → G → Bool) (nameCol : String) (i : Nat)
    (f : Feature G) (r : JoinRow G) (rs : List (Nat × Feature G))
    (h : r ∈ joinRowsFor its nameCol i f rs) : r.fidx = i := by
  rcases mem_joinRowsFor its nameCol i f r rs h with ⟨pr, _, _, he⟩
  rw [he]

/- ### enumFeat lemmas -/

theorem enumFeat_countP {G : Type} (q : Feature G → Bool) :
    ∀ (rf : List (Feature G)) (n : Nat),
      (enumFeat n rf).countP (fun pr => q pr.2) = rf.countP q := by
  intro rf
  induction rf with
  | nil => intro n; rfl
  | cons r rt ih =>
    intro n
    simp only [enumFeat]
    rw [List.countP_cons, List.countP_cons, ih (n + 1)]

theorem mem_enumFeat_of_mem {G : Type} (r : Feature G) :
    ∀ (rf : List (Feature G)) (n : Nat), r ∈ rf → ∃ j, (j, r) ∈ enumFeat n rf := by
  intro rf
  induction rf with
  | nil => intro n h; simp at h
  | cons r0 rt ih =>
    intro n h
    rcases List.mem_cons.mp h with h1 | h1
    · exact ⟨n, by rw [h1]; simp only [enumFeat]; exact List.mem_cons_self _ _⟩
    · rcases ih (n + 1) h1 with ⟨j, hj⟩
      exact ⟨j, by simp only [enumFeat]; exact List.mem_cons_of_mem _ hj⟩

theorem snd_mem_of_mem_enumFeat {G : Type} :
    ∀ (rf : List (Feature G)) (n : Nat) (pr : Nat × Feature G),
      pr ∈ enumFeat n rf → pr.2 ∈ rf := by
  intro rf
  induction rf with
  | nil => intro n pr h; simp [enumFeat] at h
  | cons r0 rt ih =>
    intro n pr h
    simp only [enumFeat] at h
    rcases List.mem_cons.mp h with h1 | h1
    · rw [h1]; exact List.mem_cons_self _ _
    · exact List.mem_cons_of_mem _ (ih (n + 1) pr h1)

/- ### sjoinAux lemmas -/

theorem sjoinAux_countP_lt {G : Type} (its : G → G → Bool) (nameCol : String)
    (rs : List (Nat × Feature G)) (nm : PVal) (i : Nat) :
    ∀ (ff : List (Feature G)) (n : Nat), i < n →
      (sjoinAux its nameCol rs n ff).countP
        (fun r => decide (r.rname = nm) && decide (r.fidx = i)) = 0 := by
  intro ff
  induction ff with
  | nil => intro n _; rfl
  | cons f ft ih =>
    intro n hn
    simp only [sjoinAux]
    rw [List.countP_append]
    have h1 : (joinRowsFor its nameCol n f rs).countP
        (fun r => decide (r.rname = nm) && decide (r.fidx = i)) = 0 := by
      rw [List.countP_eq_zero]
      intro r hr
      have hf := joinRowsFor_fidx its nameCol n f r rs hr
      simp [hf]
      intro _
      omega
    rw [h1, ih (n + 1) (by omega)]

theorem sjoinAux_countP {G : Type} (its : G → G → Bool) (nameCol : String)
    (rs : List (Nat × Feature G)) (nm : PVal) :
    ∀ (ff : List (Feature G)) (j n : Nat) (f : Feature G), ff.get? j = some f →
      (sjoinAux its nameCol rs n ff).countP
        (fun r => decide (r.rname = nm) && decide (r.fidx = n + j))
        = rs.countP (fun pr =>
            its f.geom pr.2.geom && decide (regionNameVal nameCol pr.2 = nm)) := by
  intro ff
  induction ff with
  | nil => intro j n f hf; simp at hf
  | cons f0 ft ih =>
    intro j n f hf
    cases j with
    | zero =>
      rw [List.get?_cons_zero] at hf
      injection hf with hf
      rw [← hf]
      simp only [sjoinAux, Nat.add_zero]
      rw [List.countP_append]
      have h2 : (sjoinAux its nameCol rs (n + 1) ft).countP
          (fun r => decide (r.rname = nm) && decide (r.fidx = n)) = 0 :=
        sjoinAux_countP_lt its nameCol rs nm n ft (n + 1) (by omega)
      rw [h2, Nat.add_zero]
      have h3 : (joinRowsFor its nameCol n f0 rs).countP
          (fun r => decide (r.rname = nm) && decide (r.fidx = n))
          = (joinRowsFor its nameCol n f0 rs).countP (fun r => decide (r.rname = nm)) := by
        apply List.countP_congr
        intro r hr
        have hfx := joinRowsFor_fidx its nameCol n f0 r rs hr
        simp [hfx]
      rw [h3, joinRowsFor_countP_name]
    | succ j2 =>
      rw [List.get?_cons_succ] at hf
      simp only [sjoinAux]
      rw [List.countP_append]
      have h1 : (joinRowsFor its nameCol n f0 rs).countP
          (fun r => decide (r.rname = nm) && decide (r.fidx = n + (j2 + 1))) = 0 := by
        rw [List.countP_eq_zero]
        intro r hr
        have hfx := joinRowsFor_fidx its nameCol n f0 r rs hr
        simp [hfx]
      rw [h1]
      have h4 : n + (j2 + 1) = (n + 1) + j2 := by omega
      simp only [h4]
      rw [ih j2 (n + 1) f hf, Nat.zero_add]

theorem sjoinAux_origin {G : Type} (its : G → G → Bool) (nameCol : String)
    (rs : List (Nat × Feature G)) :
    ∀ (ff : List (Feature G)) (n : Nat) (r : JoinRow G), r ∈ sjoinAux its nameCol rs n ff →
      ∃ j f, ff.get? j = some f ∧ r.fidx = n + j ∧ r.geom = f.geom ∧ r.attrs = f.attrs ∧
        ∃ pr, pr ∈ rs ∧ its f.geom pr.2.geom = true ∧
          r.rname = regionNameVal nameCol pr.2 := by
  intro ff
  induction ff with
  | nil => intro n r h; simp [sjoinAux] at h
  | cons f0 ft ih =>
    intro n r h
    simp only [sjoinAux] at h
    rcases List.mem_append.mp h with h1 | h1
    · rcases mem_joinRowsFor its nameCol n f0 r rs h1 with ⟨pr, hpr, hits, he⟩
      refine ⟨0, f0, List.get?_cons_zero, ?_, ?_, ?_, pr, hpr, hits, ?_⟩ <;> simp [he]
    · rcases ih (n + 1) r h1 with ⟨j, f, hj, hfx, hg, hat, pr, hpr, hits, hnm⟩
      exact ⟨j + 1, f, by rw [List.get?_cons_succ]; exact hj, by omega, hg, hat,
        pr, hpr, hits, hnm⟩

theorem sjoinAux_name_mem {G : Type} (its : G → G → Bool) (nameCol : String)
    (rs : List (Nat × Feature G)) :
    ∀ (ff : List (Feature G)) (n j : Nat) (f : Feature G), ff.get? j = some f →
      ∀ pr, pr ∈ rs → its f.geom pr.2.geom = true →
      ∃ r, r ∈ sjoinAux its nameCol rs n ff ∧ r.rname = regionNameVal nameCol pr.2 := by
  intro ff
  induction ff with
  | nil => intro n j f hf; simp at hf
  | cons f0 ft ih =>
    intro n j f hf pr hpr hits
    cases j with
    | zero =>
      rw [List.get?_cons_zero] at hf
      injection hf with hf
      rw [← hf] at hits
      rcases joinRowsFor_emit its nameCol n f0 pr rs hpr hits with ⟨r, hr, he⟩
      refine ⟨r, ?_, he⟩
      simp only [sjoinAux]
      exact List.mem_append_left _ hr
    | succ j2 =>
      rw [List.get?_cons_succ] at hf
      rcases ih (n + 1) j2 f hf pr hpr hits with ⟨r, hr, he⟩
      refine ⟨r, ?_, he⟩
      simp only [sjoinAux]
      exact List.mem_append_right _ hr

/- ### Per-name region count -/

theorem region_count {G : Type} (nameCol : String) (q : Feature G → Bool) (s : List Nat) :
    ∀ (rf : List (Feature G)) (r : Feature G), r ∈ rf →
      regionNameVal nameCol r = PVal.vstr s →
      (rf.map (regionNameVal nameCol)).countP (fun v => decide (v = PVal.vstr s)) ≤ 1 →
      rf.countP (fun reg => q reg && decide (regionNameVal nameCol reg = PVal.vstr s))
        = if q r then 1 else 0 := by
  intro rf
  induction rf with
  | nil => intro r hr; intro _ _; simp at hr
  | cons r0 rt ih =>
    intro r hr hs hcount
    rw [List.map_cons, List.countP_cons] at hcount
    rw [List.countP_cons]
    by_cases h0 : regionNameVal nameCol r0 = PVal.vstr s
    · rw [if_pos (by simp [h0])] at hcount
      have htail0 : (rt.map (regionNameVal nameCol)).countP
          (fun v => decide (v = PVal.vstr s)) = 0 := by omega
      have htail : rt.countP
          (fun reg => q reg && decide (regionNameVal nameCol reg = PVal.vstr s)) = 0 := by
        rw [List.countP_eq_zero]
        intro reg hreg hpred
        rw [List.countP_eq_zero] at htail0
        simp at hpred
        exact htail0 (regionNameVal nameCol reg) (List.mem_map_of_mem _ hreg)
          (by simp [hpred.2])
      have hrr : r = r0 := by
        rcases List.mem_cons.mp hr with h1 | h1
        · exact h1
        · exfalso
          rw [List.countP_eq_zero] at htail0
          exact htail0 (regionNameVal nameCol r) (List.mem_map_of_mem _ h1) (by simp [hs])
      rw [htail, hrr]
      simp [h0]
    · have hr1 : r ∈ rt := by
        rcases List.mem_cons.mp hr with h1 | h1
        · exfalso; rw [h1] at hs; exact h0 hs
        · exact h1
      have hcount1 : (rt.map (regionNameVal nameCol)).countP
          (fun v => decide (v = PVal.vstr s)) ≤ 1 := by
        rw [if_neg (by simp [h0])] at hcount
        omega
      rw [ih r hr1 hs hcount1]
      simp [h0]

/- ### Grouping-loop lemmas -/

theorem buildOutputsAux_mem_fst {G : Type} (outDir : List Nat) (nameCol : String)
    (rows : List (JoinRow G)) :
    ∀ (NL : List PVal) (pg : List Nat × RegionGroup G),
      pg ∈ (buildOutputsAux outDir nameCol rows NL).1 →
      ∃ s, PVal.vstr s ∈ NL ∧ pg = (mkPath outDir s, mkGroup nameCol s rows) := by
  intro NL
  induction NL with
  | nil => intro pg h; simp [buildOutputsAux] at h
  | cons nm rest ih =>
    intro pg h
    cases nm with
    | vstr s =>
      simp only [buildOutputsAux] at h
      rcases List.mem_cons.mp h with h1 | h1
      · exact ⟨s, List.mem_cons_self _ _, h1⟩
      · rcases ih pg h1 with ⟨s2, hs2, he⟩
        exact ⟨s2, List.mem_cons_of_mem _ hs2, he⟩
    | vnull =>
      simp only [buildOutputsAux] at h
      rcases ih pg h with ⟨s2, hs2, he⟩
      exact ⟨s2, List.mem_cons_of_mem _ hs2, he⟩
    | vnum k =>
      simp only [buildOutputsAux] at h
      rcases ih pg h with ⟨s2, hs2, he⟩
      exact ⟨s2, List.mem_cons_of_mem _ hs2, he⟩

theorem buildOutputsAux_diag {G : Type} (outDir : List Nat) (nameCol : String)
    (rows : List (JoinRow G)) :
    ∀ (NL : List PVal) (nm : PVal), nm ∈ NL → isText nm = false →
      nm ∈ (buildOutputsAux outDir nameCol rows NL).2 := by
  intro NL
  induction NL with
  | nil => intro nm h _; simp at h
  | cons nm0 rest ih =>
    intro nm hmem htext
    rcases List.mem_cons.mp hmem with h1 | h1
    · subst h1
      cases nm with
      | vstr s => simp [isText] at htext
      | vnull => simp only [buildOutputsAux]; exact List.mem_cons_self _ _
      | vnum k => simp only [buildOutputsAux]; exact List.mem_cons_self _ _
    · cases nm0 with
      | vstr s => simp only [buildOutputsAux]; exact ih nm h1 htext
      | vnull =>
        simp only [buildOutputsAux]
        exact List.mem_cons_of_mem _ (ih nm h1 htext)
      | vnum k =>
        simp only [buildOutputsAux]
        exact List.mem_cons_of_mem _ (ih nm h1 htext)

theorem groupCount_buildAux_not_mem {G : Type} (outDir : List Nat) (nameCol : String)
    (rows : List (JoinRow G)) (s : List Nat) (i : Nat) :
    ∀ NL : List PVal, PVal.vstr s ∉ NL →
      groupCount (buildOutputsAux outDir nameCol rows NL).1 s i = 0 := by
  intro NL
  induction NL with
  | nil => intro _; rfl
  | cons nm rest ih =>
    intro hnot
    have hrest : PVal.vstr s ∉ rest := fun hc => hnot (List.mem_cons_of_mem _ hc)
    cases nm with
    | vstr s2 =>
      have hne : ¬(s2 = s) := by
        intro he
        apply hnot
        rw [he]
        exact List.mem_cons_self _ _
      simp [buildOutputsAux, groupCount, mkGroup, hne, ih hrest]
    | vnull => simp [buildOutputsAux, ih hrest]
    | vnum k => simp [buildOutputsAux, ih hrest]

theorem groupCount_buildAux_mem {G : Type} (outDir : List Nat) (nameCol : String)
    (rows : List (JoinRow G)) (s : List Nat) (i : Nat) :
    ∀ NL : List PVal, PVal.vstr s ∈ NL → NL.Nodup →
      groupCount (buildOutputsAux outDir nameCol rows NL).1 s i
        = rows.countP
            (fun r => decide (r.rname = PVal.vstr s) && decide (r.fidx = i)) := by
  intro NL
  induction NL with
  | nil => intro h _; simp at h
  | cons nm rest ih =>
    intro hmem hnd
    rcases List.nodup_cons.mp hnd with ⟨hn0, hnd2⟩
    by_cases h1 : nm = PVal.vstr s
    · subst h1
      simp only [buildOutputsAux, groupCount]
      rw [groupCount_buildAux_not_mem outDir nameCol rows s i rest hn0]
      have hgr : (mkGroup nameCol s rows).rname = s := rfl
      rw [if_pos hgr, Nat.add_zero]
      have hfeats : (mkGroup nameCol s rows).feats.countP (fun row => decide (row.fidx = i))
          = (rows.filter fun r => decide (r.rname = PVal.vstr s)).countP
              (fun r => decide (r.fidx = i)) := by
        simp [mkGroup, mkOutRow, List.countP_map]
        apply List.countP_congr
        intro r _
        rfl
      rw [hfeats, List.countP_filter]
      apply List.countP_congr
      intro r _
      cases h2 : decide (r.rname = PVal.vstr s) <;>
        cases h3 : decide (r.fidx = i) <;> simp [h2, h3]
    · have hmem2 : PVal.vstr s ∈ rest := by
        rcases List.mem_cons.mp hmem with h2 | h2
        · exact absurd h2.symm h1
        · exact h2
      cases nm with
      | vstr s2 =>
        have hne : ¬(s2 = s) := by
          intro he
          exact h1 (by rw [he])
        simp only [buildOutputsAux, groupCount]
        have hgr : (mkGroup nameCol s2 rows).rname = s2 := rfl
        rw [hgr, if_neg hne, ih hmem2 hnd2, Nat.zero_add]
      | vnull =>
        simp only [buildOutputsAux]
        exact ih hmem2 hnd2
      | vnum k =>
        simp only [buildOutputsAux]
        exact ih hmem2 hnd2

theorem groupsContaining_buildAux {G : Type} (outDir : List Nat) (nameCol : String)
    (rows : List (JoinRow G)) (i : Nat) :
    ∀ NL : List PVal, (∀ nm ∈ NL, isText nm = true) →
      groupsContaining (buildOutputsAux outDir nameCol rows NL).1 i
        = NL.countP
            (fun nm => rows.any fun r => decide (r.rname = nm) && decide (r.fidx = i)) := by
  intro NL
  induction NL with
  | nil => intro _; rfl
  | cons nm rest ih =>
    intro htext
    have htext0 := htext nm (List.mem_cons_self _ _)
    have ihx := ih (fun nm2 h2 => htext nm2 (List.mem_cons_of_mem _ h2))
    cases nm with
    | vnull => simp [isText] at htext0
    | vnum k => simp [isText] at htext0
    | vstr s =>
      simp only [buildOutputsAux]
      unfold groupsContaining at ihx ⊢
      rw [List.countP_cons, List.countP_cons, ihx]
      have hany : ((mkGroup nameCol s rows).feats.any fun row => decide (row.fidx = i))
          = rows.any (fun r => decide (r.rname = PVal.vstr s) && decide (r.fidx = i)) := by
        show ((rows.filter fun r => decide (r.rname = PVal.vstr s)).map
            (mkOutRow nameCol)).any (fun row => decide (row.fidx = i))
          = rows.any (fun r => decide (r.rname = PVal.vstr s) && decide (r.fidx = i))
        rw [any_map2, List.any_filter]
        rfl
      simp [hany]

/- ### Normalization and run-level lemmas -/

theorem defaultCrs_isSome {G : Type} (regions : GeoFrame G) :
    ∃ rc, (defaultCrs regions).crs = some rc := by
  unfold defaultCrs
  by_cases h0 : regions.crs = none
  · rw [if_pos h0]; exact ⟨wgs84, rfl⟩
  · rw [if_neg h0]
    cases h1 : regions.crs with
    | none => exact absurd h1 h0
    | some rc => exact ⟨rc, rfl⟩

theorem defaultCrs_cols {G : Type} (regions : GeoFrame G) :
    (defaultCrs regions).cols = regions.cols := by
  unfold defaultCrs
  split <;> rfl

theorem defaultCrs_feats {G : Type} (regions : GeoFrame G) :
    (defaultCrs regions).feats = regions.feats := by
  unfold defaultCrs
  split <;> rfl

/-- Normalization after the loading stage, for a fault frame whose
reference identifier is set: it always succeeds, it never touches the
fault frame, it yields equal reference identifiers, it leaves the regions
alone when the (defaulted) references already agree, and otherwise it
reprojects exactly the region geometries into the fault reference. -/
theorem normalizeFrames_spec {G : Type} (transform : G → List Nat → List Nat → G)
    (faults regions : GeoFrame G) (c : List Nat) (hc : faults.crs = some c) :
    ∃ rdf, normalizeFrames transform faults regions = Except.ok (faults, rdf)
      ∧ rdf.crs = some c ∧ rdf.cols = regions.cols
      ∧ ((defaultCrs regions).crs = some c → rdf = defaultCrs regions)
      ∧ (∀ rc, (defaultCrs regions).crs = some rc → rc ≠ c →
          rdf.feats = (defaultCrs regions).feats.map
            fun f0 => ⟨transform f0.geom rc c, f0.attrs⟩) := by
  rcases defaultCrs_isSome regions with ⟨rc, hrc⟩
  by_cases heq : c = rc
  · refine ⟨defaultCrs regions, ?_, ?_, defaultCrs_cols regions, fun _ => rfl, ?_⟩
    · unfold normalizeFrames
      rw [if_pos (by rw [hc, hrc, heq])]
    · rw [hrc, heq]
    · intro rc2 h1 h2
      rw [hrc] at h1
      injection h1 with h1
      rw [← h1] at h2
      exact absurd heq.symm h2
  · have hne : faults.crs ≠ (defaultCrs regions).crs := by
      rw [hc, hrc]
      intro h
      injection h with h
      exact heq h
    refine ⟨⟨some c, (defaultCrs regions).cols,
      (defaultCrs regions).feats.map fun f0 => ⟨transform f0.geom rc c, f0.attrs⟩⟩,
      ?_, rfl, defaultCrs_cols regions, ?_, ?_⟩
    · unfold normalizeFrames
      rw [if_neg hne]
      simp only [hc, hrc]
    · intro h1
      rw [hrc] at h1
      injection h1 with h1
      exact absurd h1.symm heq
    · intro rc2 h1 _
      rw [hrc] at h1
      injection h1 with h1
      rw [h1]

theorem normalizeFrames_fst {G : Type} (transform : G → List Nat → List Nat → G)
    (faults regions : GeoFrame G) (pr : GeoFrame G × GeoFrame G)
    (h : normalizeFrames transform faults regions = Except.ok pr) : pr.1 = faults := by
  unfold normalizeFrames at h
  by_cases h0 : faults.crs = (defaultCrs regions).crs
  · rw [if_pos h0] at h
    injection h with h
    rw [← h]
  · rw [if_neg h0] at h
    cases hf : faults.crs with
    | none =>
      rw [hf] at h
      simp at h
    | some c =>
      cases hr : (defaultCrs regions).crs with
      | none => rw [hf, hr] at h; simp at h
      | some rc =>
        rw [hf, hr] at h
        simp at h
        rw [← h]

theorem splitRun_done_inv {G : Type} (its : G → G → Bool)
    (transform : G → List Nat → List Nat → G) (faults regions : GeoFrame G)
    (outDir : List Nat) (nameCol : String)
    (outs : List (List Nat × RegionGroup G)) (diags : List PVal)
    (h : splitRun its transform faults regions outDir nameCol
        = RunResult.done outs diags) :
    ∃ rdf, normalizeFrames transform faults regions = Except.ok (faults, rdf)
      ∧ nameCol ∈ rdf.cols
      ∧ outs = (buildOutputs outDir nameCol
          (sjoinInner its nameCol faults.feats rdf.feats)).1
      ∧ diags = (buildOutputs outDir nameCol
          (sjoinInner its nameCol faults.feats rdf.feats)).2 := by
  unfold splitRun at h
  cases hn : normalizeFrames transform faults regions with
  | error e => rw [hn] at h; simp at h
  | ok pr =>
    have hfst := normalizeFrames_fst transform faults regions pr hn
    rw [hn] at h
    change (if nameCol ∈ pr.2.cols then
        RunResult.done
          (buildOutputs outDir nameCol (sjoinInner its nameCol pr.1.feats pr.2.feats)).1
          (buildOutputs outDir nameCol (sjoinInner its nameCol pr.1.feats pr.2.feats)).2
      else RunResult.fatalColumn pr.2.cols) = RunResult.done outs diags at h
    by_cases hcol : nameCol ∈ pr.2.cols
    · rw [if_pos hcol] at h
      injection h with h1 h2
      refine ⟨pr.2, ?_, hcol, ?_, ?_⟩
      · congr 1
        rw [← hfst]
      · rw [← h1, hfst]
      · rw [← h2, hfst]
    · rw [if_neg hcol] at h
      simp at h

theorem splitRun_of_norm {G : Type} (its : G → G → Bool)
    (transform : G → List Nat → List Nat → G) (faults regions rdf : GeoFrame G)
    (outDir : List Nat) (nameCol : String)
    (hnorm : normalizeFrames transform faults regions = Except.ok (faults, rdf))
    (hcol : nameCol ∈ rdf.cols) :
    splitRun its transform faults regions outDir nameCol
      = RunResult.done
        (buildOutputs outDir nameCol (sjoinInner its nameCol faults.feats rdf.feats)).1
        (buildOutputs outDir nameCol (sjoinInner its nameCol faults.feats rdf.feats)).2 := by
  unfold splitRun
  rw [hnorm]
  change (if nameCol ∈ rdf.cols then
      RunResult.done
        (buildOutputs outDir nameCol (sjoinInner its nameCol faults.feats rdf.feats)).1
        (buildOutputs outDir nameCol (sjoinInner its nameCol faults.feats rdf.feats)).2
    else RunResult.fatalColumn rdf.cols) = _
  rw [if_pos hcol]

/-- Cleaning one joined row drops exactly the two appended join columns
and filters the fault's own attributes by the prefix heuristic. -/
theorem cleanAttrs_eq {G : Type} (nameCol : String) (row : JoinRow G) :
    cleanAttrs nameCol row = row.attrs.filter (fun p => keepCol nameCol p.1) := by
  unfold cleanAttrs joinedAttrs
  rw [List.filter_append]
  have h1 : keepCol nameCol nameCol = false := by
    unfold keepCol
    simp
  have h2 : keepCol nameCol ("index_right") = false := by
    unfold keepCol
    have hpre : ("index_").data.isPrefixOf ("index_right").data = true := by decide
    simp [hpre]
  simp [List.filter_cons, h1, h2]

/-- Counting, over a duplicate-free name list, the names matched by some
`q`-region equals counting the `q`-regions themselves, when region names
are pairwise distinct and every `q`-region's name occurs in the list. -/
theorem count_names_eq {G : Type} (nameCol : String) (q : Feature G → Bool)
    (NL : List PVal) (hNL : NL.Nodup) :
    ∀ rf : List (Feature G), (rf.map (regionNameVal nameCol)).Nodup →
      (∀ reg ∈ rf, q reg = true → regionNameVal nameCol reg ∈ NL) →
      NL.countP (fun nm => rf.any fun reg => q reg && decide (regionNameVal nameCol reg = nm))
        = rf.countP q := by
  intro rf
  induction rf with
  | nil =>
    intro _ _
    simp
  | cons r0 rt ih =>
    intro hnd hmem
    rw [List.map_cons, List.nodup_cons] at hnd
    rcases hnd with ⟨h0, hndt⟩
    rw [List.countP_cons]
    by_cases hq : q r0 = true
    · have hdisj : ∀ nm ∈ NL,
          ¬((decide (regionNameVal nameCol r0 = nm)) = true
            ∧ (rt.any fun reg => q reg && decide (regionNameVal nameCol reg = nm)) = true) := by
        intro nm _ hcon
        rcases hcon with ⟨hl, hr2⟩
        rw [decide_eq_true_iff] at hl
        rw [List.any_eq_true] at hr2
        rcases hr2 with ⟨reg, hreg, hpred⟩
        have hreq : regionNameVal nameCol reg = nm := by
          simp only [Bool.and_eq_true, decide_eq_true_eq] at hpred
          exact hpred.2
        apply h0
        rw [hl, ← hreq]
        exact List.mem_map_of_mem _ hreg
      have hsplit : NL.countP (fun nm => (r0 :: rt).any
            fun reg => q reg && decide (regionNameVal nameCol reg = nm))
          = NL.countP (fun nm => decide (regionNameVal nameCol r0 = nm))
            + NL.countP (fun nm =>
                rt.any fun reg => q reg && decide (regionNameVal nameCol reg = nm)) := by
        rw [← countP_disjoint _ _ NL hdisj]
        apply List.countP_congr
        intro nm _
        rw [List.any_cons]
        simp [hq]
      rw [hsplit,
        countP_eq_one_of_nodup NL (regionNameVal nameCol r0) hNL
          (hmem r0 (List.mem_cons_self _ _) hq),
        ih hndt (fun reg hreg hq2 => hmem reg (List.mem_cons_of_mem _ hreg) hq2)]
      simp [hq]
      omega
    · have hq0 : q r0 = false := by
        cases h2 : q r0
        · rfl
        · exact absurd h2 hq
      have hcg : NL.countP (fun nm => (r0 :: rt).any
            fun reg => q reg && decide (regionNameVal nameCol reg = nm))
          = NL.countP (fun nm =>
              rt.any fun reg => q reg && decide (regionNameVal nameCol reg = nm)) := by
        apply List.countP_congr
        intro nm _
        rw [List.any_cons]
        simp [hq0]
      rw [hcg, ih hndt (fun reg hreg hq2 => hmem reg (List.mem_cons_of_mem _ hreg) hq2)]
      simp [hq0]

/- ### Claim theorems -/

/-- C5, counterexample: the sanitizer's fallback on the whitespace-only
input `"   "` is the literal `"unknown_country"` (line 156 of `main.py`),
not `"unknown_region"` as the claim states. -/
theorem claim5_cex :
    slug (codes ("   ")) = codes ("unknown_country")
      ∧ ¬(slug (codes ("   ")) = codes ("unknown_region")) := by
  refine ⟨?_, ?_⟩ <;> decide

/-- C5, amended: on any input whose result is empty after the
transformation steps, the sanitizer substitutes the fixed fallback
identifier `"unknown_country"`. -/
theorem claim5_fallback (l : List Nat) (h : slugCore l = []) :
    slug l = codes ("unknown_country") := by
  simp [slug, h]

/-- C5, witness: the whitespace-only input `"   "` transforms to the empty
result, and the amended theorem yields the fallback on it. -/
theorem claim5_witness :
    slugCore (codes ("   ")) = [] ∧ slug (codes ("   ")) = codes ("unknown_country") :=
  ⟨by decide, claim5_fallback (codes ("   ")) (by decide)⟩

/-- C6, counterexample: on the whitespace-only input `" "` the sanitizer
(`"unknown_country"`) differs from the claimed five-step composition
(which yields the empty text), so the two do not agree on every input. -/
theorem claim6_cex : ¬(slug (codes (" ")) = slugCore (codes (" "))) := by
  decide

/-- C6, amended: on every input whose five-step transformation result
(trim whitespace, remove apostrophes, collapse each maximal non-word run
to one underscore, lowercase, strip outer underscores — `slugCore`) is
nonempty, the sanitizer equals that composition; and sanitizing
`"People's Republic of China"` (codepoint 39 is the apostrophe) yields
`"peoples_republic_of_china"`. -/
theorem claim6_transform :
    (∀ l : List Nat, slugCore l ≠ [] → slug l = slugCore l)
      ∧ slug (codes ("People") ++ [39] ++ codes ("s Republic of China"))
          = codes ("peoples_republic_of_china") := by
  refine ⟨fun l h => by simp [slug, h], ?_⟩
  decide

/-- C6, witness: a concrete input with a nonempty transformation result,
on which the amended theorem applies. -/
theorem claim6_witness :
    slugCore (codes ("Rio-Negro Zone")) ≠ []
      ∧ slug (codes ("Rio-Negro Zone")) = slugCore (codes ("Rio-Negro Zone")) :=
  ⟨by decide, claim6_transform.1 (codes ("Rio-Negro Zone")) (by decide)⟩

/-- C7: the identifier sanitizer is idempotent — applying it to its own
output returns that output unchanged.  Purity (same input, same output) is
definitional here: `slug` is a function of its input alone, exactly as the
Python code computes `safe_country_name` from `country_name` without
reading any other state. -/
theorem claim7_idempotent : ∀ l : List Nat, slug (slug l) = slug l :=
  slug_slug

/-- C2, counterexample: with both reference identifiers unset, the region
frame receives the WGS84 default, the references then differ, and
`countries_gdf.to_crs(faults_gdf.crs)` is called with `None` — geopandas
raises, so normalization does not end with two equal identifiers for this
starting combination. -/
theorem claim2_cex :
    normalizeFrames (fun (g : Unit) _ _ => g)
        (⟨none, [], []⟩ : GeoFrame Unit) (⟨none, [], []⟩ : GeoFrame Unit)
      = Except.error ("to_crs: must pass either crs or epsg") := rfl

/-- C2, amended: whenever the fault frame carries a reference identifier,
normalization succeeds; an unset region reference is first assigned the
fixed WGS84 default; afterwards both frames report the fault reference;
the fault frame is returned untouched; the region frame is returned
untouched when the (defaulted) references already agree and otherwise has
exactly its geometries reprojected into the fault reference. -/
theorem claim2_normalization {G : Type} (transform : G → List Nat → List Nat → G)
    (faults regions : GeoFrame G) (c : List Nat) (hc : faults.crs = some c) :
    (regions.crs = none → (defaultCrs regions).crs = some wgs84)
    ∧ ∃ rdf, normalizeFrames transform faults regions = Except.ok (faults, rdf)
      ∧ rdf.crs = some c ∧ rdf.cols = regions.cols
      ∧ ((defaultCrs regions).crs = some c → rdf = defaultCrs regions)
      ∧ (∀ rc, (defaultCrs regions).crs = some rc → rc ≠ c →
          rdf.feats = (defaultCrs regions).feats.map
            fun f0 => ⟨transform f0.geom rc c, f0.attrs⟩) :=
  ⟨fun h => by simp [defaultCrs, h], normalizeFrames_spec transform faults regions c hc⟩

/-- Identity reprojection service used by concrete instances. -/
def trIdU : Unit → List Nat → List Nat → Unit := fun g _ _ => g

/-- Concrete fault frame with a set reference, for the C2 witness. -/
def wit2faults : GeoFrame Unit := ⟨some (codes ("EPSG:32647")), [], []⟩

/-- Concrete region frame with an unset reference, for the C2 witness. -/
def wit2regions : GeoFrame Unit := ⟨none, [], []⟩

/-- C2, witness: the amended theorem applied to a fault frame tagged
`EPSG:32647` and a naive region frame. -/
theorem claim2_witness :
    (wit2regions.crs = none → (defaultCrs wit2regions).crs = some wgs84)
    ∧ ∃ rdf, normalizeFrames trIdU wit2faults wit2regions = Except.ok (wit2faults, rdf)
      ∧ rdf.crs = some (codes ("EPSG:32647")) ∧ rdf.cols = wit2regions.cols
      ∧ ((defaultCrs wit2regions).crs = some (codes ("EPSG:32647")) →
          rdf = defaultCrs wit2regions)
      ∧ (∀ rc, (defaultCrs wit2regions).crs = some rc → rc ≠ codes ("EPSG:32647") →
          rdf.feats = (defaultCrs wit2regions).feats.map
            fun f0 => ⟨trIdU f0.geom rc (codes ("EPSG:32647")), f0.attrs⟩) :=
  claim2_normalization trIdU wit2faults wit2regions (codes ("EPSG:32647")) rfl

/-- C8: when the configured region-name column is absent from the region
frame, the run (past a successful reference normalization, which needs the
fault reference set) aborts with the fatal missing-column error carrying
the list of available column names, and no `done` outputs exist — this is
the check of lines 99–103 of `main.py`, which runs before the spatial
join. -/
theorem claim8_missing_column {G : Type} (its : G → G → Bool)
    (transform : G → List Nat → List Nat → G) (faults regions : GeoFrame G)
    (outDir : List Nat) (nameCol : String) (c : List Nat)
    (hc : faults.crs = some c) (hcol : nameCol ∉ regions.cols) :
    splitRun its transform faults regions outDir nameCol
      = RunResult.fatalColumn regions.cols := by
  rcases normalizeFrames_spec transform faults regions c hc with
    ⟨rdf, hn, _h1, hcols, _h2, _h3⟩
  unfold splitRun
  rw [hn]
  change (if nameCol ∈ rdf.cols then
      RunResult.done
        (buildOutputs outDir nameCol (sjoinInner its nameCol faults.feats rdf.feats)).1
        (buildOutputs outDir nameCol (sjoinInner its nameCol faults.feats rdf.feats)).2
    else RunResult.fatalColumn rdf.cols) = RunResult.fatalColumn regions.cols
  rw [if_neg (by rw [hcols]; exact hcol), hcols]

/-- Identity reprojection service over `Nat` geometries. -/
def trId : Nat → List Nat → List Nat → Nat := fun g _ _ => g

/-- Exact-intersection test of the concrete instances: two `Nat`
geometries intersect when they are equal. -/
def geomEq : Nat → Nat → Bool := fun a b => a == b

/-- Concrete fault frame for the C8 witness. -/
def wit8faults : GeoFrame Nat := ⟨some (codes ("EPSG:4326")), [], [⟨0, []⟩]⟩

/-- Concrete region frame whose only column is `NAME`, for the C8 witness. -/
def wit8regions : GeoFrame Nat :=
  ⟨some (codes ("EPSG:4326")), ["NAME"], [⟨0, [(("NAME" : String), PVal.vstr (codes ("Peru")))]⟩]⟩

/-- C8, witness: configuring the column `NAME_EN` against a region frame
that only has `NAME` aborts with the available column list `["NAME"]`. -/
theorem claim8_witness :
    splitRun geomEq trId wit8faults wit8regions (codes ("o")) ("NAME_EN")
      = RunResult.fatalColumn (["NAME"]) :=
  claim8_missing_column geomEq trId wit8faults wit8regions (codes ("o")) ("NAME_EN")
    (codes ("EPSG:4326")) rfl (by decide)

/-- Intersection test of the C1 counterexample: the single fault (geometry
`0`) meets only the region with geometry `1`. -/
def cex1its : Nat → Nat → Bool := fun a b => a == 0 && b == 1

/-- Fault frame of the C1 counterexample. -/
def cex1faults : GeoFrame Nat := ⟨some wgs84, [], [⟨0, []⟩]⟩

/-- Region frame of the C1 counterexample: two distinct region features,
geometries `1` and `2`, both carrying the same name value `"X"`. -/
def cex1regions : GeoFrame Nat :=
  ⟨some wgs84, ["N"],
    [⟨1, [(("N" : String), PVal.vstr (codes ("X")))]⟩,
      ⟨2, [(("N" : String), PVal.vstr (codes ("X")))]⟩]⟩

/-- C1, counterexample: with two regions sharing the identifier `"X"`, the
fault appears exactly once in the output group for `"X"` — which is also
the group of the second region, whose geometry it does not intersect.  So
"appears exactly once iff the geometries share a point", read over every
fault/region pair, fails on this input (and with it the per-region reading
of no-phantom-assignment). -/
theorem claim1_cex :
    splitRun cex1its trId cex1faults cex1regions (codes ("o")) ("N")
        = RunResult.done
            [(codes ("o/faults_x.geojson"), ⟨codes ("X"), [⟨0, 0, []⟩]⟩)] []
      ∧ (⟨2, [(("N" : String), PVal.vstr (codes ("X")))]⟩ : Feature Nat)
          ∈ cex1regions.feats
      ∧ regionNameVal ("N")
          (⟨2, [(("N" : String), PVal.vstr (codes ("X")))]⟩ : Feature Nat)
            = PVal.vstr (codes ("X"))
      ∧ cex1its 0 2 = false
      ∧ groupCount [(codes ("o/faults_x.geojson"), ⟨codes ("X"), [⟨0, 0, []⟩]⟩)]
          (codes ("X")) 0 = 1 := by
  refine ⟨?_, ?_, ?_, ?_, ?_⟩ <;> decide

/-- C1, amended: in a completed run, for a fault `f` (at DataFrame index
`i`) and a normalized region feature `r` whose identifier is the text `s`,
provided at most one region carries the identifier `s` and the fault
schema is disjoint from the join columns, the rows of fault `i` across the
output groups named `s` number exactly one when `f`'s geometry intersects
`r`'s and zero otherwise (coverage, uniqueness, and no phantom assignment
in one count). -/
theorem claim1_membership {G : Type} (its : G → G → Bool)
    (transform : G → List Nat → List Nat → G) (faults regions rdf : GeoFrame G)
    (outDir : List Nat) (nameCol : String)
    (outs : List (List Nat × RegionGroup G)) (diags : List PVal)
    (i : Nat) (f r : Feature G) (s : List Nat)
    (hnorm : normalizeFrames transform faults regions = Except.ok (faults, rdf))
    (hrun : splitRun its transform faults regions outDir nameCol
        = RunResult.done outs diags)
    (_hschema : ∀ f0 ∈ faults.feats,
        f0.attrs.lookup nameCol = none ∧ f0.attrs.lookup ("index_right") = none)
    (hf : faults.feats.get? i = some f)
    (hr : r ∈ rdf.feats)
    (hs : regionNameVal nameCol r = PVal.vstr s)
    (hcount : (rdf.feats.map (regionNameVal nameCol)).countP
        (fun v => decide (v = PVal.vstr s)) ≤ 1) :
    groupCount outs s i = if its f.geom r.geom then 1 else 0 := by
  rcases splitRun_done_inv its transform faults regions outDir nameCol outs diags hrun
    with ⟨rdf2, hn2, hcol, ho, hd⟩
  rw [hnorm] at hn2
  injection hn2 with hpair
  injection hpair with he1 he2
  subst he2
  subst ho
  unfold buildOutputs
  by_cases hmem : PVal.vstr s
      ∈ (sjoinInner its nameCol faults.feats rdf.feats).map (fun r2 => r2.rname)
  · rw [groupCount_buildAux_mem outDir nameCol _ s i _
      ((mem_uniqueFirst _ _).mpr hmem) (nodup_uniqueFirst _)]
    have hc2 := sjoinAux_countP its nameCol (enumFeat 0 rdf.feats) (PVal.vstr s)
      faults.feats i 0 f hf
    simp only [Nat.zero_add] at hc2
    unfold sjoinInner
    rw [hc2, enumFeat_countP
      (fun reg => its f.geom reg.geom && decide (regionNameVal nameCol reg = PVal.vstr s))
      rdf.feats 0]
    exact region_count nameCol (fun reg => its f.geom reg.geom) s rdf.feats r hr hs hcount
  · rw [groupCount_buildAux_not_mem outDir nameCol _ s i _
      (fun hc3 => hmem ((mem_uniqueFirst _ _).mp hc3))]
    by_cases hits : its f.geom r.geom = true
    · exfalso
      rcases mem_enumFeat_of_mem r rdf.feats 0 hr with ⟨j, hj⟩
      rcases sjoinAux_name_mem its nameCol (enumFeat 0 rdf.feats) faults.feats 0 i f hf
        (j, r) hj hits with ⟨row, hrow, hname⟩
      apply hmem
      rw [List.mem_map]
      refine ⟨row, hrow, ?_⟩
      rw [hname]
      exact hs
    · have hits0 : its f.geom r.geom = false := by
        cases h3 : its f.geom r.geom
        · rfl
        · exact absurd h3 hits
      rw [hits0]
      rfl

/-- Fault frame of the C1 witness: one fault with geometry `5`. -/
def wit1faults : GeoFrame Nat := ⟨some wgs84, [], [⟨5, []⟩]⟩

/-- Region frame of the C1 witness: one region, geometry `5`, named
`"Chile"`. -/
def wit1regions : GeoFrame Nat :=
  ⟨some wgs84, ["N"], [⟨5, [(("N" : String), PVal.vstr (codes ("Chile")))]⟩]⟩

/-- Outputs which the C1 witness run produces. -/
def wit1outs : List (List Nat × RegionGroup Nat) :=
  [(codes ("w/faults_chile.geojson"), ⟨codes ("Chile"), [⟨0, 5, []⟩]⟩)]

/-- C1, witness: the amended theorem applied to a one-fault, one-region
run in which the geometries intersect. -/
theorem claim1_witness :
    groupCount wit1outs (codes ("Chile")) 0 = if geomEq 5 5 then 1 else 0 :=
  claim1_membership geomEq trId wit1faults wit1regions wit1regions (codes ("w")) ("N")
    wit1outs [] 0 ⟨5, []⟩ ⟨5, [(("N" : String), PVal.vstr (codes ("Chile")))]⟩
    (codes ("Chile")) rfl (by decide) (by decide) rfl (by decide) rfl (by decide)

/-- Region frame of the C3 counterexample: one region whose name cell is
the empty text. -/
def cex3regions : GeoFrame Nat :=
  ⟨some wgs84, ["N"], [⟨4, [(("N" : String), PVal.vstr [])]⟩]⟩

/-- Fault frame of the C3 counterexample. -/
def cex3faults : GeoFrame Nat := ⟨some wgs84, [], [⟨4, []⟩]⟩

/-- C3, counterexample: a join row whose region identifier is the empty
text is not discarded — the run completes with an output group for the
empty identifier (written under the fallback slug) and with no skip
diagnostic.  The `country_name is None or not isinstance(...)` test of
line 130 lets the empty string through. -/
theorem claim3_cex :
    splitRun geomEq trId cex3faults cex3regions (codes ("o")) ("N")
      = RunResult.done
          [(codes ("o/faults_unknown_country.geojson"), ⟨[], [⟨0, 4, []⟩]⟩)] [] := by
  decide

/-- C3, amended: in any run that reaches the per-country loop, every join
row whose region identifier is null or non-text is discarded: the run
still completes (no abort), the offending value is reported as a skip
diagnostic, and every row of every output group originates from a join
row whose identifier is the group's text — so the invalid rows reach no
group.  Empty-string identifiers, by contrast, do produce a group (see
the counterexample). -/
theorem claim3_invalid_names {G : Type} (its : G → G → Bool)
    (transform : G → List Nat → List Nat → G) (faults regions rdf : GeoFrame G)
    (outDir : List Nat) (nameCol : String)
    (hnorm : normalizeFrames transform faults regions = Except.ok (faults, rdf))
    (hcol : nameCol ∈ rdf.cols) :
    ∃ outs diags,
      splitRun its transform faults regions outDir nameCol = RunResult.done outs diags
      ∧ (∀ nm, nm ∈ (sjoinInner its nameCol faults.feats rdf.feats).map
            (fun r2 => r2.rname) → isText nm = false → nm ∈ diags)
      ∧ (∀ pg ∈ outs, ∀ orow ∈ pg.2.feats,
          ∃ jrow, jrow ∈ sjoinInner its nameCol faults.feats rdf.feats
            ∧ jrow.rname = PVal.vstr pg.2.rname ∧ orow = mkOutRow nameCol jrow) := by
  refine ⟨_, _, splitRun_of_norm its transform faults regions rdf outDir nameCol hnorm hcol,
    ?_, ?_⟩
  · intro nm hnm htext
    exact buildOutputsAux_diag outDir nameCol _ _ nm
      ((mem_uniqueFirst _ _).mpr hnm) htext
  · intro pg hpg orow horow
    rcases buildOutputsAux_mem_fst outDir nameCol _ _ pg hpg with ⟨s, _hsNL, hpe⟩
    rw [hpe] at horow ⊢
    rcases List.mem_map.mp horow with ⟨jrow, hjf, hje⟩
    rw [List.mem_filter] at hjf
    refine ⟨jrow, hjf.1, ?_, hje.symm⟩
    exact of_decide_eq_true hjf.2

/-- Region frame of the C3 witness: one region named `"Peru"` (text) and
one with a null name cell, both met by the fault. -/
def wit3regions : GeoFrame Nat :=
  ⟨some wgs84, ["N"],
    [⟨6, [(("N" : String), PVal.vstr (codes ("Peru")))]⟩,
      ⟨6, [(("N" : String), PVal.vnull)]⟩]⟩

/-- Fault frame of the C3 witness. -/
def wit3faults : GeoFrame Nat := ⟨some wgs84, [], [⟨6, []⟩]⟩

/-- C3, witness: the amended theorem applied to a run containing a
null-named region. -/
theorem claim3_witness :
    ∃ outs diags,
      splitRun geomEq trId wit3faults wit3regions (codes ("o")) ("N")
          = RunResult.done outs diags
      ∧ (∀ nm, nm ∈ (sjoinInner geomEq ("N") wit3faults.feats wit3regions.feats).map
            (fun r2 => r2.rname) → isText nm = false → nm ∈ diags)
      ∧ (∀ pg ∈ outs, ∀ orow ∈ pg.2.feats,
          ∃ jrow, jrow ∈ sjoinInner geomEq ("N") wit3faults.feats wit3regions.feats
            ∧ jrow.rname = PVal.vstr pg.2.rname ∧ orow = mkOutRow ("N") jrow) :=
  claim3_invalid_names geomEq trId wit3faults wit3regions wit3regions (codes ("o")) ("N")
    rfl (by decide)

/-- Fault frame of the C4 counterexample: the fault's own attributes
include a field named `index_quality`, which is not a join artifact. -/
def cex4faults : GeoFrame Nat :=
  ⟨some wgs84, [],
    [⟨7, [(("index_quality" : String), PVal.vnum 9), (("slip" : String), PVal.vnum 3)]⟩]⟩

/-- Region frame of the C4 counterexample. -/
def cex4regions : GeoFrame Nat :=
  ⟨some wgs84, ["N"], [⟨7, [(("N" : String), PVal.vstr (codes ("A")))]⟩]⟩

/-- C4, counterexample: the prefix heuristic of line 140
(`col.startswith('index_')`) also removes the fault's own `index_quality`
field, so the removed set is not exactly the join artifacts plus the
region-identifier field — an original attribute is lost. -/
theorem claim4_cex :
    splitRun geomEq trId cex4faults cex4regions (codes ("o")) ("N")
        = RunResult.done
            [(codes ("o/faults_a.geojson"),
              ⟨codes ("A"), [⟨0, 7, [(("slip" : String), PVal.vnum 3)]⟩]⟩)] []
      ∧ (⟨7, [(("index_quality" : String), PVal.vnum 9),
            (("slip" : String), PVal.vnum 3)]⟩ : Feature Nat) ∈ cex4faults.feats
      ∧ List.lookup ("index_quality")
          [(("slip" : String), PVal.vnum 3)] = none := by
  refine ⟨?_, ?_, ?_⟩ <;> decide

/-- C4, amended: every fault feature placed into an output group keeps its
geometry and original index, and its attribute mapping equals its original
mapping filtered by line 140's rule — every field whose name starts with
`index_` (which covers the join's `index_right` artifact but also any
original `index_`-prefixed field) and the region-identifier field are
removed, and every other field, its value, and their order are unchanged. -/
theorem claim4_attrs {G : Type} (its : G → G → Bool)
    (transform : G → List Nat → List Nat → G) (faults regions : GeoFrame G)
    (outDir : List Nat) (nameCol : String)
    (outs : List (List Nat × RegionGroup G)) (diags : List PVal)
    (hrun : splitRun its transform faults regions outDir nameCol
        = RunResult.done outs diags)
    (_hschema : ∀ f0 ∈ faults.feats,
        f0.attrs.lookup nameCol = none ∧ f0.attrs.lookup ("index_right") = none) :
    ∀ pg ∈ outs, ∀ orow ∈ pg.2.feats,
      ∃ f0, faults.feats.get? orow.fidx = some f0 ∧ orow.geom = f0.geom
        ∧ orow.attrs = f0.attrs.filter (fun p => keepCol nameCol p.1) := by
  rcases splitRun_done_inv its transform faults regions outDir nameCol outs diags hrun
    with ⟨rdf, _hn, _hcol, ho, _hd⟩
  subst ho
  intro pg hpg orow horow
  rcases buildOutputsAux_mem_fst outDir nameCol _ _ pg hpg with ⟨s, _hsNL, hpe⟩
  rw [hpe] at horow
  rcases List.mem_map.mp horow with ⟨jrow, hjf, hje⟩
  rw [List.mem_filter] at hjf
  rcases sjoinAux_origin its nameCol (enumFeat 0 rdf.feats) faults.feats 0 jrow hjf.1
    with ⟨j, f0, hj, hfx, hg, hat, _pr, _hpr, _hits, _hnm⟩
  refine ⟨f0, ?_, ?_, ?_⟩
  · rw [← hje]
    show faults.feats.get? jrow.fidx = some f0
    rw [hfx, Nat.zero_add]
    exact hj
  · rw [← hje]
    exact hg
  · rw [← hje]
    show cleanAttrs nameCol jrow = f0.attrs.filter (fun p => keepCol nameCol p.1)
    rw [cleanAttrs_eq, hat]

/-- Fault frame of the C4 witness: one surviving attribute field. -/
def wit4faults : GeoFrame Nat :=
  ⟨some wgs84, [], [⟨5, [(("slip" : String), PVal.vnum 3)]⟩]⟩

/-- Region frame of the C4 witness. -/
def wit4regions : GeoFrame Nat :=
  ⟨some wgs84, ["N"], [⟨5, [(("N" : String), PVal.vstr (codes ("Chad")))]⟩]⟩

/-- C4, witness: the amended theorem applied to a completed one-fault run,
at its single output row. -/
theorem claim4_witness :
    ∃ f0, wit4faults.feats.get? 0 = some f0 ∧ (5 : Nat) = f0.geom
      ∧ [(("slip" : String), PVal.vnum 3)]
          = f0.attrs.filter (fun p => keepCol ("N") p.1) :=
  claim4_attrs geomEq trId wit4faults wit4regions (codes ("o")) ("N")
    [(codes ("o/faults_chad.geojson"),
      ⟨codes ("Chad"), [⟨0, 5, [(("slip" : String), PVal.vnum 3)]⟩]⟩)] []
    (by decide) (by decide)
    (codes ("o/faults_chad.geojson"),
      ⟨codes ("Chad"), [⟨0, 5, [(("slip" : String), PVal.vnum 3)]⟩]⟩)
    (by decide)
    ⟨0, 5, [(("slip" : String), PVal.vnum 3)]⟩
    (by decide)

/-- Fault frame of the C9 counterexample: one fault, geometry `1`. -/
def cex9faults : GeoFrame Nat := ⟨some wgs84, [], [⟨1, []⟩]⟩

/-- Region frame of the C9 counterexample: two regions meeting the fault,
one named `"A"` and one with a null name cell. -/
def cex9regions : GeoFrame Nat :=
  ⟨some wgs84, ["N"],
    [⟨1, [(("N" : String), PVal.vstr (codes ("A")))]⟩,
      ⟨1, [(("N" : String), PVal.vnull)]⟩]⟩

/-- C9, counterexample: the fault intersects exactly `k = 2` regions, but
one of them has a null identifier, so its group is skipped — the fault
appears in only one distinct output group, not two. -/
theorem claim9_cex :
    splitRun geomEq trId cex9faults cex9regions (codes ("o")) ("N")
        = RunResult.done
            [(codes ("o/faults_a.geojson"), ⟨codes ("A"), [⟨0, 1, []⟩]⟩)] [PVal.vnull]
      ∧ cex9regions.feats.countP (fun reg => geomEq 1 reg.geom) = 2
      ∧ groupsContaining
          [(codes ("o/faults_a.geojson"), ⟨codes ("A"), [⟨0, 1, []⟩]⟩)] 0 = 1 := by
  refine ⟨?_, ?_, ?_⟩ <;> decide

/-- C9, amended: in a completed run whose normalized region identifiers
are all text and pairwise distinct (and whose fault schema is disjoint
from the join columns), the number of distinct output groups containing
fault `i` equals the number of region features whose geometry intersects
it — in particular a fault intersecting exactly `k ≥ 2` regions appears,
replicated, in exactly `k` distinct groups. -/
theorem claim9_replication {G : Type} (its : G → G → Bool)
    (transform : G → List Nat → List Nat → G) (faults regions rdf : GeoFrame G)
    (outDir : List Nat) (nameCol : String)
    (outs : List (List Nat × RegionGroup G)) (diags : List PVal)
    (i : Nat) (f : Feature G)
    (hnorm : normalizeFrames transform faults regions = Except.ok (faults, rdf))
    (hrun : splitRun its transform faults regions outDir nameCol
        = RunResult.done outs diags)
    (_hschema : ∀ f0 ∈ faults.feats,
        f0.attrs.lookup nameCol = none ∧ f0.attrs.lookup ("index_right") = none)
    (hf : faults.feats.get? i = some f)
    (hnames : ∀ r ∈ rdf.feats, isText (regionNameVal nameCol r) = true)
    (hnodup : (rdf.feats.map (regionNameVal nameCol)).Nodup) :
    groupsContaining outs i = rdf.feats.countP (fun reg => its f.geom reg.geom) := by
  rcases splitRun_done_inv its transform faults regions outDir nameCol outs diags hrun
    with ⟨rdf2, hn2, _hcol, ho, _hd⟩
  rw [hnorm] at hn2
  injection hn2 with hpair
  injection hpair with _he1 he2
  subst he2
  subst ho
  unfold buildOutputs
  have hNLtext : ∀ nm ∈ uniqueFirst ((sjoinInner its nameCol faults.feats rdf.feats).map
      (fun r2 => r2.rname)), isText nm = true := by
    intro nm hnm
    rw [mem_uniqueFirst] at hnm
    rcases List.mem_map.mp hnm with ⟨row, hrow, he⟩
    rcases sjoinAux_origin its nameCol (enumFeat 0 rdf.feats) faults.feats 0 row hrow with
      ⟨j, f2, _hj, _hfx, _hg, _hat, pr, hpr, _hits, hnmr⟩
    rw [← he, hnmr]
    exact hnames pr.2 (snd_mem_of_mem_enumFeat rdf.feats 0 pr hpr)
  rw [groupsContaining_buildAux outDir nameCol _ i _ hNLtext]
  have hpoint : ∀ nm ∈ uniqueFirst ((sjoinInner its nameCol faults.feats rdf.feats).map
      (fun r2 => r2.rname)),
      ((sjoinInner its nameCol faults.feats rdf.feats).any
        fun r2 => decide (r2.rname = nm) && decide (r2.fidx = i))
      = (rdf.feats.any
        fun reg => its f.geom reg.geom && decide (regionNameVal nameCol reg = nm)) := by
    intro nm _
    rw [any_eq_decide_countP, any_eq_decide_countP]
    have hc2 := sjoinAux_countP its nameCol (enumFeat 0 rdf.feats) nm faults.feats i 0 f hf
    simp only [Nat.zero_add] at hc2
    unfold sjoinInner
    rw [hc2, enumFeat_countP
      (fun reg => its f.geom reg.geom && decide (regionNameVal nameCol reg = nm))
      rdf.feats 0]
  rw [List.countP_congr (fun nm hnm => by rw [hpoint nm hnm])]
  have hmemc : ∀ reg ∈ rdf.feats, its f.geom reg.geom = true →
      regionNameVal nameCol reg ∈ uniqueFirst
        ((sjoinInner its nameCol faults.feats rdf.feats).map (fun r2 => r2.rname)) := by
    intro reg hreg hits
    rw [mem_uniqueFirst, List.mem_map]
    rcases mem_enumFeat_of_mem reg rdf.feats 0 hreg with ⟨j, hj⟩
    rcases sjoinAux_name_mem its nameCol (enumFeat 0 rdf.feats) faults.feats 0 i f hf
      (j, reg) hj hits with ⟨row, hrow, he⟩
    exact ⟨row, hrow, he⟩
  exact count_names_eq nameCol (fun reg => its f.geom reg.geom) _
    (nodup_uniqueFirst _) rdf.feats hnodup hmemc

/-- Fault frame of the C9 witness: one fault, geometry `3`. -/
def wit9faults : GeoFrame Nat := ⟨some wgs84, [], [⟨3, []⟩]⟩

/-- Region frame of the C9 witness: distinct text names, one region met by
the fault and one not. -/
def wit9regions : GeoFrame Nat :=
  ⟨some wgs84, ["N"],
    [⟨3, [(("N" : String), PVal.vstr (codes ("Peru")))]⟩,
      ⟨9, [(("N" : String), PVal.vstr (codes ("Chad")))]⟩]⟩

/-- C9, witness: the amended theorem applied to a completed two-region run. -/
theorem claim9_witness :
    groupsContaining
        [(codes ("o/faults_peru.geojson"), ⟨codes ("Peru"), [⟨0, 3, []⟩]⟩)] 0
      = wit9regions.feats.countP (fun reg => geomEq 3 reg.geom) :=
  claim9_replication geomEq trId wit9faults wit9regions wit9regions (codes ("o")) ("N")
    [(codes ("o/faults_peru.geojson"), ⟨codes ("Peru"), [⟨0, 3, []⟩]⟩)] []
    0 ⟨3, []⟩ rfl (by decide) (by decide) rfl (by decide) (by decide)

/-- C10: every output of a completed run is written at the path obtained
by joining the output directory with `"faults_"`, the slug of the group's
region identifier, and `".geojson"` (line 159 of `main.py`); consequently
two groups whose distinct identifiers share a slug are written to the same
path (the later write overwriting the earlier at the writer boundary). -/
theorem claim10_paths {G : Type} (its : G → G → Bool)
    (transform : G → List Nat → List Nat → G) (faults regions : GeoFrame G)
    (outDir : List Nat) (nameCol : String)
    (outs : List (List Nat × RegionGroup G)) (diags : List PVal)
    (hrun : splitRun its transform faults regions outDir nameCol
        = RunResult.done outs diags) :
    (∀ pg ∈ outs, pg.1 = outDir ++ [47]
        ++ (codes ("faults_") ++ slug pg.2.rname ++ codes (".geojson")))
    ∧ ∀ pg1 ∈ outs, ∀ pg2 ∈ outs,
        slug pg1.2.rname = slug pg2.2.rname → pg1.1 = pg2.1 := by
  rcases splitRun_done_inv its transform faults regions outDir nameCol outs diags hrun
    with ⟨rdf, _hn, _hcol, ho, _hd⟩
  subst ho
  have hpath : ∀ pg ∈ (buildOutputs outDir nameCol
      (sjoinInner its nameCol faults.feats rdf.feats)).1,
      pg.1 = outDir ++ [47]
        ++ (codes ("faults_") ++ slug pg.2.rname ++ codes (".geojson")) := by
    intro pg hpg
    rcases buildOutputsAux_mem_fst outDir nameCol _ _ pg hpg with ⟨s, _h, hpe⟩
    rw [hpe]
    rfl
  refine ⟨hpath, ?_⟩
  intro pg1 h1 pg2 h2 hslug
  rw [hpath pg1 h1, hpath pg2 h2, hslug]

/-- Fault frame of the C10 witness. -/
def wit10faults : GeoFrame Nat := ⟨some wgs84, [], [⟨2, []⟩]⟩

/-- Region frame of the C10 witness: the distinct names `"S o"` and
`"S-o"` share the slug `s_o`. -/
def wit10regions : GeoFrame Nat :=
  ⟨some wgs84, ["N"],
    [⟨2, [(("N" : String), PVal.vstr (codes ("S o")))]⟩,
      ⟨2, [(("N" : String), PVal.vstr (codes ("S-o")))]⟩]⟩

/-- Outputs of the C10 witness run: two groups, one shared path. -/
def wit10outs : List (List Nat × RegionGroup Nat) :=
  [(codes ("o/faults_s_o.geojson"), ⟨codes ("S o"), [⟨0, 2, []⟩]⟩),
    (codes ("o/faults_s_o.geojson"), ⟨codes ("S-o"), [⟨0, 2, []⟩]⟩)]

/-- C10, witness: the path theorem applied to a run with a slug collision:
both groups are written to the same file. -/
theorem claim10_witness :
    (∀ pg ∈ wit10outs, pg.1 = codes ("o") ++ [47]
        ++ (codes ("faults_") ++ slug pg.2.rname ++ codes (".geojson")))
    ∧ ∀ pg1 ∈ wit10outs, ∀ pg2 ∈ wit10outs,
        slug pg1.2.rname = slug pg2.2.rname → pg1.1 = pg2.1 :=
  claim10_paths geomEq trId wit10faults wit10regions (codes ("o")) ("N")
    wit10outs [] (by decide)

end GemFaults
